import Mathlib

/-!
Verification of the intrusive doubly-linked list from
`src/rust/samples/unsafe.rs` (`IntrusiveList`).

Shallow embedding: raw node pointers (`NonNull<ListNode<T>>`) are modelled
as natural-number node identifiers; caller-owned node storage is a total
heap `Nat → ListNode T`.  A list state carries the heap together with the
`head`, `tail` and `len` fields of the Rust struct.  The two unsafe
operations `push_back` and `remove` are translated statement by statement,
with each raw-pointer write becoming a pointwise heap update performed in
the same order as in the source.  `usize` arithmetic on `len` is modelled
by `Nat` (`self.len -= 1` becomes truncated subtraction, matching wrapping
only being avoided under the documented precondition).
-/

/-- `struct ListNode<T> { value, next, prev }` from `unsafe.rs`
(the `PhantomPinned` marker carries no data and is dropped). -/
structure ListNode (T : Type) where
  value : T
  next : Option Nat
  prev : Option Nat
deriving DecidableEq, Repr

/-- The list struct `IntrusiveList<T> { head, tail, len }`, paired with the
heap of caller-owned nodes that the raw pointers point into. -/
structure ListState (T : Type) where
  heap : Nat → ListNode T
  head : Option Nat
  tail : Option Nat
  len : Nat

/-- Pointer write `p.as_mut().next = v`. -/
def setNext {T : Type} (h : Nat → ListNode T) (i : Nat) (v : Option Nat) :
    Nat → ListNode T :=
  fun j => if j = i then ⟨(h i).value, v, (h i).prev⟩ else h j

/-- Pointer write `p.as_mut().prev = v`. -/
def setPrev {T : Type} (h : Nat → ListNode T) (i : Nat) (v : Option Nat) :
    Nat → ListNode T :=
  fun j => if j = i then ⟨(h i).value, (h i).next, v⟩ else h j

/-- `IntrusiveList::new()`: head, tail cleared and `len = 0`; the
caller-owned heap is whatever nodes the caller has built. -/
def newList {T : Type} (h : Nat → ListNode T) : ListState T :=
  ⟨h, none, none, 0⟩

/-- `IntrusiveList::push_back(node)`, translated from the `match self.tail`
in `unsafe.rs`: with an existing tail, `tail.next = node; node.prev = tail;
self.tail = node`; on an empty list, `self.head = self.tail = node`;
finally `self.len += 1`. -/
def push_back {T : Type} (s : ListState T) (node : Nat) : ListState T :=
  match s.tail with
  | some tail =>
      ⟨setPrev (setNext s.heap tail (some node)) node (some tail),
       s.head, some node, s.len + 1⟩
  | none =>
      ⟨s.heap, some node, some node, s.len + 1⟩

/-- `IntrusiveList::remove(node)`, translated from `unsafe.rs`: read
`(prev, next)` from the node, splice via the two matches (updating `head`
or `tail` at the endpoints), clear the node's own `prev` then `next`, and
`self.len -= 1`. -/
def remove {T : Type} (s : ListState T) (node : Nat) : ListState T :=
  let prev := (s.heap node).prev
  let next := (s.heap node).next
  let h1 := match prev with
    | some p => setNext s.heap p next
    | none => s.heap
  let head1 := match prev with
    | some _ => s.head
    | none => next
  let h2 := match next with
    | some nx => setPrev h1 nx prev
    | none => h1
  let tail1 := match next with
    | some _ => s.tail
    | none => prev
  ⟨setNext (setPrev h2 node none) node none, head1, tail1, s.len - 1⟩

/-- Exit pointer of a chain segment: the first element of `ys` when `ys` is
nonempty, otherwise the given closing pointer `q`. -/
def exitPtr (q : Option Nat) (ys : List Nat) : Option Nat :=
  match ys with
  | [] => q
  | y :: _ => some y

/-- Entry pointer of a chain segment: the last element of `xs` when `xs` is
nonempty, otherwise the given opening pointer `p`. -/
def entryPtr (p : Option Nat) (xs : List Nat) : Option Nat :=
  match xs.getLast? with
  | some t => some t
  | none => p

/-- `chainSeg h p xs q`: the nodes `xs` form a doubly-linked segment in
heap `h` whose first `prev` is `p` and whose last `next` is `q`. -/
def chainSeg {T : Type} (h : Nat → ListNode T) :
    Option Nat → List Nat → Option Nat → Prop
  | _, [], _ => True
  | p, x :: rest, q =>
      (h x).prev = p ∧ (h x).next = exitPtr q rest ∧ chainSeg h (some x) rest q

/-- The chain invariant of the list (spec §3): the nodes `xs` form a
doubly-linked chain opened and closed by null, `head` is the first node,
`tail` the last, and `len` counts the nodes, with no node linked twice. -/
def ListInv {T : Type} (s : ListState T) (xs : List Nat) : Prop :=
  chainSeg s.heap none xs none ∧ s.head = xs.head? ∧ s.tail = xs.getLast? ∧
  s.len = xs.length ∧ xs.Nodup

/-- Full well-formedness: the chain invariant plus the push_back
precondition material — every node not in the list has cleared links
(a node "not already in a list"). -/
def ListWf {T : Type} (s : ListState T) (xs : List Nat) : Prop :=
  ListInv s xs ∧ ∀ n, n ∉ xs → (s.heap n).next = none ∧ (s.heap n).prev = none

/-- States reachable from `IntrusiveList::new()` (over a heap of unlinked
caller nodes) by `push_back` and `remove` calls satisfying their stated
preconditions; `xs` tracks the linked nodes in order, `p` and `r` count the
calls. -/
inductive Reach {T : Type} : ListState T → List Nat → Nat → Nat → Prop
  | init (h : Nat → ListNode T)
      (hclean : ∀ n, (h n).next = none ∧ (h n).prev = none) :
      Reach (newList h) [] 0 0
  | push (s : ListState T) (xs : List Nat) (p r n : Nat)
      (hs : Reach s xs p r) (hn : n ∉ xs) :
      Reach (push_back s n) (xs ++ [n]) (p + 1) r
  | rem (s : ListState T) (xs : List Nat) (p r n : Nat)
      (hs : Reach s xs p r) (hn : n ∈ xs) :
      Reach (remove s n) (xs.erase n) p (r + 1)

/-- Forward traversal: follow `next` pointers for the given number of
steps, collecting visited nodes. -/
def traverseNext {T : Type} (h : Nat → ListNode T) :
    Option Nat → Nat → List Nat
  | _, 0 => []
  | none, _ + 1 => []
  | some x, fuel + 1 => x :: traverseNext h (h x).next fuel

/-- Backward traversal: follow `prev` pointers for the given number of
steps, collecting visited nodes. -/
def traversePrev {T : Type} (h : Nat → ListNode T) :
    Option Nat → Nat → List Nat
  | _, 0 => []
  | none, _ + 1 => []
  | some x, fuel + 1 => x :: traversePrev h (h x).prev fuel

/-- Follow `next` pointers for the given number of steps. -/
def iterNext {T : Type} (h : Nat → ListNode T) :
    Option Nat → Nat → Option Nat
  | o, 0 => o
  | none, _ + 1 => none
  | some x, fuel + 1 => iterNext h (h x).next fuel

/-- A concrete caller-owned heap: every node starts unlinked. -/
def cleanHeap : Nat → ListNode Nat := fun _ => ⟨0, none, none⟩

/-! ### Basic lemmas about heap updates and chain pointers -/

theorem cleanHeap_clean : ∀ n, (cleanHeap n).next = none ∧
    (cleanHeap n).prev = none := fun _ => ⟨rfl, rfl⟩

theorem setNext_self {T : Type} (h : Nat → ListNode T) (i : Nat) (v : Option Nat) :
    setNext h i v i = ⟨(h i).value, v, (h i).prev⟩ := by
  simp [setNext]

theorem setNext_other {T : Type} (h : Nat → ListNode T) (i j : Nat) (v : Option Nat)
    (hj : j ≠ i) : setNext h i v j = h j := by
  simp [setNext, hj]

theorem setPrev_self {T : Type} (h : Nat → ListNode T) (i : Nat) (v : Option Nat) :
    setPrev h i v i = ⟨(h i).value, (h i).next, v⟩ := by
  simp [setPrev]

theorem setPrev_other {T : Type} (h : Nat → ListNode T) (i j : Nat) (v : Option Nat)
    (hj : j ≠ i) : setPrev h i v j = h j := by
  simp [setPrev, hj]

theorem setNext_value {T : Type} (h : Nat → ListNode T) (i j : Nat) (v : Option Nat) :
    (setNext h i v j).value = (h j).value := by
  by_cases hj : j = i
  · subst hj; simp [setNext]
  · simp [setNext, hj]

theorem setPrev_value {T : Type} (h : Nat → ListNode T) (i j : Nat) (v : Option Nat) :
    (setPrev h i v j).value = (h j).value := by
  by_cases hj : j = i
  · subst hj; simp [setPrev]
  · simp [setPrev, hj]

theorem exitPtr_none_eq_head? (r : List Nat) : exitPtr none r = r.head? := by
  cases r <;> rfl

theorem entryPtr_none_eq_getLast? (l : List Nat) : entryPtr none l = l.getLast? := by
  unfold entryPtr
  cases l.getLast? <;> rfl

theorem entryPtr_concat (p : Option Nat) (l : List Nat) (n : Nat) :
    entryPtr p (l ++ [n]) = some n := by
  simp [entryPtr, List.getLast?_concat]

theorem exitPtr_nonempty (q q' : Option Nat) (x : Nat) (r : List Nat) :
    exitPtr q (x :: r) = exitPtr q' (x :: r) := rfl

theorem head?_mem {x : Nat} {l : List Nat} (h : l.head? = some x) : x ∈ l := by
  cases l with
  | nil => simp at h
  | cons y t => simp at h; subst h; exact List.mem_cons_self y t

/-! ### Chain segment lemmas -/

theorem chainSeg_congr {T : Type} {h1 h2 : Nat → ListNode T} :
    ∀ {p q : Option Nat} {xs : List Nat}, (∀ x ∈ xs, h2 x = h1 x) →
    chainSeg h1 p xs q → chainSeg h2 p xs q := by
  intro p q xs
  induction xs generalizing p with
  | nil => intro _ _; trivial
  | cons x rest ih =>
      intro hx hc
      obtain ⟨hp, hn, hrest⟩ := hc
      have hxx : h2 x = h1 x := hx x (List.mem_cons_self x rest)
      exact ⟨hxx ▸ hp, hxx ▸ hn,
        ih (fun y hy => hx y (List.mem_cons_of_mem x hy)) hrest⟩

theorem chainSeg_append {T : Type} {h : Nat → ListNode T} :
    ∀ {xs ys : List Nat} {p q : Option Nat},
    chainSeg h p (xs ++ ys) q ↔
      chainSeg h p xs (exitPtr q ys) ∧ chainSeg h (entryPtr p xs) ys q := by
  intro xs
  induction xs with
  | nil =>
      intro ys p q
      simp [chainSeg, entryPtr]
  | cons x rest ih =>
      intro ys p q
      constructor
      · rintro ⟨hp, hn, hc⟩
        have hc2 : chainSeg h (some x) (rest ++ ys) q := hc
        rw [ih] at hc2
        obtain ⟨h1, h2⟩ := hc2
        refine ⟨⟨hp, ?_, h1⟩, ?_⟩
        · cases rest with
          | nil => cases ys with
            | nil => exact hn
            | cons y t => exact hn
          | cons z t => exact hn
        · have : entryPtr p (x :: rest) = entryPtr (some x) rest := by
            unfold entryPtr
            cases hrest : rest.getLast? with
            | none =>
                have : rest = [] := by
                  cases rest with
                  | nil => rfl
                  | cons a b => simp [List.getLast?_cons_cons] at hrest
                subst this
                rfl
            | some t =>
                have : (x :: rest).getLast? = some t := by
                  cases rest with
                  | nil => simp at hrest
                  | cons a b => rw [List.getLast?_cons_cons]; exact hrest
                rw [this]
          rw [this]
          exact h2
      · rintro ⟨⟨hp, hn, hc⟩, h2⟩
        refine ⟨hp, ?_, ?_⟩
        · cases rest with
          | nil => cases ys with
            | nil => exact hn
            | cons y t => exact hn
          | cons z t => exact hn
        · show chainSeg h (some x) (rest ++ ys) q
          rw [ih]
          refine ⟨hc, ?_⟩
          have : entryPtr p (x :: rest) = entryPtr (some x) rest := by
            unfold entryPtr
            cases hrest : rest.getLast? with
            | none =>
                have : rest = [] := by
                  cases rest with
                  | nil => rfl
                  | cons a b => simp [List.getLast?_cons_cons] at hrest
                subst this
                rfl
            | some t =>
                have : (x :: rest).getLast? = some t := by
                  cases rest with
                  | nil => simp at hrest
                  | cons a b => rw [List.getLast?_cons_cons]; exact hrest
                rw [this]
          rw [this] at h2
          exact h2

theorem entryPtr_cons (p : Option Nat) (x : Nat) (rest : List Nat) :
    entryPtr p (x :: rest) = entryPtr (some x) rest := by
  unfold entryPtr
  cases hrest : rest.getLast? with
  | none =>
      have : rest = [] := by
        cases rest with
        | nil => rfl
        | cons a b => simp [List.getLast?_cons_cons] at hrest
      subst this
      rfl
  | some t =>
      have : (x :: rest).getLast? = some t := by
        cases rest with
        | nil => simp at hrest
        | cons a b => rw [List.getLast?_cons_cons]; exact hrest
      rw [this]

/-- Rewiring the `next` of the final node of a segment moves the segment's
exit pointer; no other node of the segment is affected. -/
theorem chainSeg_setNext_getLast {T : Type} {h : Nat → ListNode T} {t : Nat} :
    ∀ {ys : List Nat} {p q q' : Option Nat}, t ∉ ys →
    chainSeg h p (ys ++ [t]) q →
    chainSeg (setNext h t q') p (ys ++ [t]) q' := by
  intro ys
  induction ys with
  | nil =>
      intro p q q' _ hc
      obtain ⟨hp, _, _⟩ := hc
      refine ⟨?_, ?_, trivial⟩
      · rw [setNext_self]; exact hp
      · rw [setNext_self]; rfl
  | cons y rest ih =>
      intro p q q' hmem hc
      obtain ⟨hp, hn, hc2⟩ := hc
      have hyt : y ≠ t := fun hEq => hmem (hEq ▸ List.mem_cons_self y rest)
      have hrest : t ∉ rest := fun hr => hmem (List.mem_cons_of_mem y hr)
      refine ⟨?_, ?_, ?_⟩
      · rw [setNext_other h t y q' hyt]; exact hp
      · rw [setNext_other h t y q' hyt]
        cases rest with
        | nil => exact hn
        | cons z zs => exact hn
      · exact ih hrest hc2

/-- Rewiring the `prev` of the first node of a segment moves the segment's
entry pointer; no other node of the segment is affected. -/
theorem chainSeg_setPrev_head {T : Type} {h : Nat → ListNode T} {x : Nat}
    {rest : List Nat} {p p' q : Option Nat} (hmem : x ∉ rest)
    (hc : chainSeg h p (x :: rest) q) :
    chainSeg (setPrev h x p') p' (x :: rest) q := by
  obtain ⟨_, hn, hc2⟩ := hc
  refine ⟨?_, ?_, ?_⟩
  · rw [setPrev_self]
  · rw [setPrev_self]; exact hn
  · exact chainSeg_congr (fun y hy => setPrev_other h x y p'
      (fun hEq => hmem (hEq ▸ hy))) hc2

/-- Link consistency along a null-terminated chain: a `next` link into `b`
is answered by `b`'s `prev` link (spec §3 invariant, first half). -/
theorem chainSeg_consistent {T : Type} {h : Nat → ListNode T} :
    ∀ {xs : List Nat} {p : Option Nat}, chainSeg h p xs none →
    ∀ a b, a ∈ xs → (h a).next = some b → (h b).prev = some a := by
  intro xs
  induction xs with
  | nil => intro p _ a b ha; simp at ha
  | cons x rest ih =>
      intro p hc a b ha hnext
      obtain ⟨hp, hn, hc2⟩ := hc
      rcases List.mem_cons.mp ha with hax | harest
      · subst hax
        rw [hnext] at hn
        cases rest with
        | nil => simp [exitPtr] at hn
        | cons z zs =>
            have hbz : b = z := by simpa [exitPtr] using hn
            subst hbz
            exact hc2.1
      · exact ih hc2 a b harest hnext

/-- Following `next` from the first node of a null-terminated chain for
exactly its length visits exactly the chain (spec §3 invariant, second
half). -/
theorem chainSeg_traverseNext {T : Type} {h : Nat → ListNode T} :
    ∀ {xs : List Nat} {p : Option Nat}, chainSeg h p xs none →
    traverseNext h xs.head? xs.length = xs := by
  intro xs
  induction xs with
  | nil => intro p _; rfl
  | cons x rest ih =>
      intro p hc
      obtain ⟨_, hn, hc2⟩ := hc
      show x :: traverseNext h (h x).next rest.length = x :: rest
      rw [hn, exitPtr_none_eq_head?]
      rw [ih hc2]

/-- Following `next` from the first node of a null-terminated chain for
exactly its length ends at null. -/
theorem chainSeg_iterNext {T : Type} {h : Nat → ListNode T} :
    ∀ {xs : List Nat} {p : Option Nat}, chainSeg h p xs none →
    iterNext h xs.head? xs.length = none := by
  intro xs
  induction xs with
  | nil => intro p _; rfl
  | cons x rest ih =>
      intro p hc
      obtain ⟨_, hn, hc2⟩ := hc
      show iterNext h (h x).next rest.length = none
      rw [hn, exitPtr_none_eq_head?]
      exact ih hc2

/-- Following `prev` from the last node of a null-opened chain for exactly
its length visits the chain in reverse. -/
theorem chainSeg_traversePrev {T : Type} {h : Nat → ListNode T} :
    ∀ {xs : List Nat} {q : Option Nat}, chainSeg h none xs q →
    traversePrev h (entryPtr none xs) xs.length = xs.reverse := by
  intro xs
  induction xs using List.reverseRecOn with
  | nil => intro q _; rfl
  | append_singleton ys t ih =>
      intro q hc
      rw [chainSeg_append] at hc
      obtain ⟨h1, h2⟩ := hc
      obtain ⟨hp, _, _⟩ := h2
      rw [entryPtr_concat]
      have hlen : (ys ++ [t]).length = ys.length + 1 := by simp
      rw [hlen]
      show t :: traversePrev h (h t).prev ys.length = (ys ++ [t]).reverse
      rw [hp, entryPtr_none_eq_getLast?]
      have hrec : traversePrev h (entryPtr none ys) ys.length = ys.reverse := by
        rcases ys with _ | ⟨y, rest⟩
        · rfl
        · exact ih h1
      rw [entryPtr_none_eq_getLast?] at hrec
      rw [hrec]
      simp

/-! ### Preservation of well-formedness -/

/-- `push_back` preserves well-formedness, appending the pushed node to the
chain, provided the node was not already linked. -/
theorem push_back_wf {T : Type} {s : ListState T} {xs : List Nat} {n : Nat}
    (hwf : ListWf s xs) (hn : n ∉ xs) : ListWf (push_back s n) (xs ++ [n]) := by
  obtain ⟨⟨hchain, hhead, htail, hlen, hnodup⟩, hclean⟩ := hwf
  have hnclean := hclean n hn
  cases hxtail : s.tail with
  | none =>
      have hxs : xs = [] := by
        rw [hxtail] at htail
        exact List.getLast?_eq_none_iff.mp htail.symm
      subst hxs
      have hstate : push_back s n = ⟨s.heap, some n, some n, s.len + 1⟩ := by
        simp [push_back, hxtail]
      rw [hstate]
      have hlen0 : s.len = 0 := by simpa using hlen
      refine ⟨⟨⟨hnclean.2, ?_, trivial⟩, rfl, rfl, ?_, ?_⟩, ?_⟩
      · show (s.heap n).next = exitPtr none []
        exact hnclean.1
      · show s.len + 1 = ([] ++ [n]).length
        simp [hlen0]
      · simp
      · intro m hm
        exact hclean m (by simp)
  | some t =>
      rw [hxtail] at htail
      have hglast : xs.getLast? = some t := htail.symm
      have htmem : t ∈ xs := List.mem_of_getLast?_eq_some hglast
      have hnt : n ≠ t := fun hEq => hn (hEq ▸ htmem)
      obtain ⟨ys, hys⟩ : ∃ ys, xs = ys ++ [t] :=
        List.getLast?_eq_some_iff.mp hglast
      subst hys
      have htys : t ∉ ys := by
        rw [List.nodup_append] at hnodup
        exact fun hty => hnodup.2.2 hty (by simp)
      have hstate : push_back s n =
          ⟨setPrev (setNext s.heap t (some n)) n (some t),
           s.head, some n, s.len + 1⟩ := by
        simp [push_back, hxtail]
      rw [hstate]
      refine ⟨⟨?_, ?_, ?_, ?_, ?_⟩, ?_⟩
      · -- the chain of (ys ++ [t]) ++ [n]
        show chainSeg (setPrev (setNext s.heap t (some n)) n (some t)) none
          ((ys ++ [t]) ++ [n]) none
        rw [chainSeg_append]
        constructor
        · -- old chain with exit rewired to the pushed node
          have step1 : chainSeg (setNext s.heap t (some n)) none (ys ++ [t])
              (some n) := chainSeg_setNext_getLast htys hchain
          have hx : exitPtr none [n] = some n := rfl
          rw [hx]
          refine chainSeg_congr (fun x hx2 => ?_) step1
          exact setPrev_other _ n x (some t) (fun hEq => hn (hEq ▸ hx2))
        · -- the pushed node closes the chain
          rw [entryPtr_concat]
          refine ⟨?_, ?_, trivial⟩
          · rw [setPrev_self]
          · rw [setPrev_self]
            show (setNext s.heap t (some n) n).next = exitPtr none []
            rw [setNext_other s.heap t n (some n) hnt, hnclean.1]
            rfl
      · -- head is unchanged and still first
        show s.head = ((ys ++ [t]) ++ [n]).head?
        rw [hhead, List.head?_append, List.head?_append, List.head?_append]
        cases ys with
        | nil => rfl
        | cons a rest => rfl
      · -- tail is the pushed node
        show some n = ((ys ++ [t]) ++ [n]).getLast?
        rw [List.getLast?_concat]
      · -- length
        show s.len + 1 = ((ys ++ [t]) ++ [n]).length
        rw [hlen]; simp
      · -- nodup
        rw [List.nodup_append]
        refine ⟨hnodup, List.nodup_singleton n, ?_⟩
        intro a ha hb
        simp at hb
        exact hn (hb ▸ ha)
      · -- unlinked nodes stay clean
        intro m hm
        have hmn : m ≠ n := by intro hEq; exact hm (hEq ▸ (by simp))
        have hmxs : m ∉ ys ++ [t] := fun hx => hm (by simp at hx ⊢; tauto)
        have hmt : m ≠ t := fun hEq => hmxs (hEq ▸ (by simp))
        show (setPrev (setNext s.heap t (some n)) n (some t) m).next = none ∧
          (setPrev (setNext s.heap t (some n)) n (some t) m).prev = none
        rw [setPrev_other _ n m (some t) hmn,
          setNext_other s.heap t m (some n) hmt]
        exact hclean m hmxs

theorem head?_append_left {l : List Nat} (r1 r2 : List Nat) (hl : l ≠ []) :
    (l ++ r1).head? = (l ++ r2).head? := by
  cases l with
  | nil => exact absurd rfl hl
  | cons a t => rfl

/-- `remove` preserves well-formedness, deleting the removed node from the
chain, provided the node was linked. -/
theorem remove_wf {T : Type} {s : ListState T} {xs : List Nat} {n : Nat}
    (hwf : ListWf s xs) (hn : n ∈ xs) : ListWf (remove s n) (xs.erase n) := by
  obtain ⟨⟨hchain, hhead, htail, hlen, hnodup⟩, hclean⟩ := hwf
  obtain ⟨l, r, hlr⟩ := List.append_of_mem hn
  subst hlr
  rw [List.nodup_append] at hnodup
  obtain ⟨hndl, hndnr, hdisj⟩ := hnodup
  rw [List.nodup_cons] at hndnr
  obtain ⟨hnr, hndr⟩ := hndnr
  have hnl : n ∉ l := fun hmem => hdisj hmem (by simp)
  have herase : (l ++ n :: r).erase n = l ++ r := by
    rw [List.erase_append_right _ hnl, List.erase_cons_head]
  rw [herase]
  have hchain2 := hchain
  rw [chainSeg_append] at hchain2
  obtain ⟨hcl, hcnr⟩ := hchain2
  obtain ⟨hprev, hnext, hcr⟩ := hcnr
  have hcl2 : chainSeg s.heap none l (some n) := hcl
  have hlxr : ∀ x ∈ l, x ∉ n :: r := fun x hx => hdisj hx
  have hrxl : ∀ x ∈ n :: r, x ∉ l := fun x hx hxl => hdisj hxl hx
  cases hgl : l.getLast? with
  | none =>
      have hl : l = [] := List.getLast?_eq_none_iff.mp hgl
      subst hl
      have hprevEq : (s.heap n).prev = none := by
        rw [hprev]; rfl
      cases hr : r with
      | nil =>
          subst hr
          have hnextEq : (s.heap n).next = none := by rw [hnext]; rfl
          have hstate : remove s n =
              ⟨setNext (setPrev s.heap n none) n none, none, none,
               s.len - 1⟩ := by
            simp [remove, hprevEq, hnextEq]
          rw [hstate]
          refine ⟨⟨trivial, rfl, rfl, ?_, List.nodup_nil⟩, ?_⟩
          · show s.len - 1 = ([] ++ ([] : List Nat)).length
            rw [hlen]; rfl
          · intro m _
            dsimp only
            by_cases hmn : m = n
            · subst hmn
              constructor
              · rw [setNext_self]
              · rw [setNext_self]
                show (setPrev s.heap m none m).prev = none
                rw [setPrev_self]
            · rw [setNext_other _ n m none hmn, setPrev_other _ n m none hmn]
              exact hclean m (by simpa using hmn)
      | cons nx r2 =>
          subst hr
          have hnextEq : (s.heap n).next = some nx := by rw [hnext]; rfl
          have hstate : remove s n =
              ⟨setNext (setPrev (setPrev s.heap nx none) n none) n none,
               some nx, s.tail, s.len - 1⟩ := by
            simp [remove, hprevEq, hnextEq]
          rw [hstate]
          have hnxr2 : nx ∉ r2 := (List.nodup_cons.mp hndr).1
          have hnnx : n ≠ nx := fun hEq => hnr (hEq ▸ (by simp))
          refine ⟨⟨?_, rfl, ?_, ?_, ?_⟩, ?_⟩
          · -- chain: the old tail chain with its head's prev cleared
            show chainSeg (setNext (setPrev (setPrev s.heap nx none) n none)
              n none) none ([] ++ nx :: r2) none
            have step1 : chainSeg (setPrev s.heap nx none) none (nx :: r2)
                none := chainSeg_setPrev_head hnxr2 hcr
            refine chainSeg_congr (fun x hx => ?_) step1
            have hxn : x ≠ n := fun hEq => hnr (hEq ▸ hx)
            rw [setNext_other _ n x none hxn, setPrev_other _ n x none hxn]
          · show s.tail = ([] ++ nx :: r2).getLast?
            rw [htail]
            rfl
          · show s.len - 1 = ([] ++ nx :: r2).length
            rw [hlen]
            simp
          · simpa using hndr
          · intro m hm
            dsimp only
            by_cases hmn : m = n
            · subst hmn
              constructor
              · rw [setNext_self]
              · rw [setNext_self]
                show (setPrev (setPrev s.heap nx none) m none m).prev = none
                rw [setPrev_self]
            · have hmnx : m ≠ nx := fun hEq => hm (hEq ▸ (by simp))
              rw [setNext_other _ n m none hmn, setPrev_other _ n m none hmn,
                setPrev_other _ nx m none hmnx]
              refine hclean m ?_
              intro hmem
              rcases List.mem_append.mp hmem with h1 | h1
              · simp at h1
              · rcases List.mem_cons.mp h1 with h2 | h2
                · exact hmn h2
                · exact hm (by simp [h2])
  | some t =>
      obtain ⟨ys, hys⟩ : ∃ ys, l = ys ++ [t] :=
        List.getLast?_eq_some_iff.mp hgl
      subst hys
      have htl : t ∈ ys ++ [t] := by simp
      have htys : t ∉ ys := by
        rw [List.nodup_append] at hndl
        exact fun hty => hndl.2.2 hty (by simp)
      have hnt : n ≠ t := fun hEq => hnl (hEq ▸ htl)
      have hprevEq : (s.heap n).prev = some t := by
        rw [hprev, entryPtr_concat]
      cases hr : r with
      | nil =>
          subst hr
          have hnextEq : (s.heap n).next = none := by rw [hnext]; rfl
          have hstate : remove s n =
              ⟨setNext (setPrev (setNext s.heap t none) n none) n none,
               s.head, some t, s.len - 1⟩ := by
            simp [remove, hprevEq, hnextEq]
          rw [hstate]
          refine ⟨⟨?_, ?_, ?_, ?_, ?_⟩, ?_⟩
          · -- chain: the old front chain with its tail's next cleared
            show chainSeg (setNext (setPrev (setNext s.heap t none) n none)
              n none) none ((ys ++ [t]) ++ []) none
            have step1 : chainSeg (setNext s.heap t none) none (ys ++ [t])
                none := chainSeg_setNext_getLast htys hcl2
            have step1b : chainSeg (setNext s.heap t none) none
                ((ys ++ [t]) ++ []) none := by simpa using step1
            refine chainSeg_congr (fun x hx => ?_) step1b
            have hxl : x ∈ ys ++ [t] := by simpa using hx
            have hxn : x ≠ n := fun hEq => hnl (hEq ▸ hxl)
            rw [setNext_other _ n x none hxn, setPrev_other _ n x none hxn]
          · show s.head = ((ys ++ [t]) ++ []).head?
            rw [hhead]
            exact head?_append_left _ _ (by simp)
          · show some t = ((ys ++ [t]) ++ []).getLast?
            rw [List.append_nil, List.getLast?_concat]
          · show s.len - 1 = ((ys ++ [t]) ++ []).length
            rw [hlen]
            simp
          · simpa using hndl
          · intro m hm
            dsimp only
            by_cases hmn : m = n
            · subst hmn
              constructor
              · rw [setNext_self]
              · rw [setNext_self]
                show (setPrev (setNext s.heap t none) m none m).prev = none
                rw [setPrev_self]
            · have hml : m ∉ ys ++ [t] := fun hx => hm (by simp at hx ⊢; tauto)
              have hmt : m ≠ t := fun hEq => hml (hEq ▸ htl)
              rw [setNext_other _ n m none hmn, setPrev_other _ n m none hmn,
                setNext_other _ t m none hmt]
              refine hclean m ?_
              intro hmem
              rcases List.mem_append.mp hmem with h1 | h1
              · exact hml h1
              · rcases List.mem_cons.mp h1 with h2 | h2
                · exact hmn h2
                · simp at h2
      | cons nx r2 =>
          subst hr
          have hnextEq : (s.heap n).next = some nx := by rw [hnext]; rfl
          have hstate : remove s n =
              ⟨setNext (setPrev (setPrev (setNext s.heap t (some nx)) nx
                 (some t)) n none) n none,
               s.head, s.tail, s.len - 1⟩ := by
            simp [remove, hprevEq, hnextEq]
          rw [hstate]
          have hnxr2 : nx ∉ r2 := (List.nodup_cons.mp hndr).1
          have hnnx : n ≠ nx := fun hEq => hnr (hEq ▸ (by simp))
          have htnx : t ≠ nx := fun hEq => (hlxr t htl) (hEq ▸ (by simp))
          refine ⟨⟨?_, ?_, ?_, ?_, ?_⟩, ?_⟩
          · -- chain: splice the two rewired halves back together
            show chainSeg (setNext (setPrev (setPrev (setNext s.heap t
              (some nx)) nx (some t)) n none) n none) none
              ((ys ++ [t]) ++ nx :: r2) none
            rw [chainSeg_append]
            constructor
            · -- front half, exit rewired to nx
              have step1 : chainSeg (setNext s.heap t (some nx)) none
                  (ys ++ [t]) (some nx) := chainSeg_setNext_getLast htys hcl2
              have hx : exitPtr none (nx :: r2) = some nx := rfl
              rw [hx]
              refine chainSeg_congr (fun x hx2 => ?_) step1
              have hxn : x ≠ n := fun hEq => hnl (hEq ▸ hx2)
              have hxnx : x ≠ nx := fun hEq => (hlxr x hx2) (hEq ▸ (by simp))
              rw [setNext_other _ n x none hxn, setPrev_other _ n x none hxn,
                setPrev_other _ nx x (some t) hxnx]
            · -- back half, entry rewired to t
              rw [entryPtr_concat]
              have hbase : chainSeg (setNext s.heap t (some nx)) (some n)
                  (nx :: r2) none := by
                refine chainSeg_congr (fun x hx2 => ?_) hcr
                have hxt : x ≠ t := fun hEq =>
                  (hlxr t htl) (List.mem_cons_of_mem n (hEq ▸ hx2))
                rw [setNext_other _ t x (some nx) hxt]
              have step2 : chainSeg (setPrev (setNext s.heap t (some nx)) nx
                  (some t)) (some t) (nx :: r2) none :=
                chainSeg_setPrev_head hnxr2 hbase
              refine chainSeg_congr (fun x hx2 => ?_) step2
              have hxn : x ≠ n := fun hEq => hnr (hEq ▸ hx2)
              rw [setNext_other _ n x none hxn, setPrev_other _ n x none hxn]
          · show s.head = ((ys ++ [t]) ++ nx :: r2).head?
            rw [hhead]
            exact head?_append_left _ _ (by simp)
          · show s.tail = ((ys ++ [t]) ++ nx :: r2).getLast?
            rw [htail, List.getLast?_append_of_ne_nil _ (by simp),
              List.getLast?_append_of_ne_nil _ (by simp),
              List.getLast?_cons_cons]
          · show s.len - 1 = ((ys ++ [t]) ++ nx :: r2).length
            rw [hlen]
            simp
          · rw [List.nodup_append]
            exact ⟨hndl, hndr, fun x hx => fun hxr =>
              (hlxr x hx) (List.mem_cons_of_mem n hxr)⟩
          · intro m hm
            dsimp only
            by_cases hmn : m = n
            · subst hmn
              constructor
              · rw [setNext_self]
              · rw [setNext_self]
                show (setPrev (setPrev (setNext s.heap t (some nx)) nx
                  (some t)) m none m).prev = none
                rw [setPrev_self]
            · have hml : m ∉ ys ++ [t] := fun hx =>
                hm (List.mem_append_left _ hx)
              have hmr : m ∉ nx :: r2 := fun hx =>
                hm (List.mem_append_right _ hx)
              have hmt : m ≠ t := fun hEq => hml (hEq ▸ htl)
              have hmnx : m ≠ nx := fun hEq => hmr (hEq ▸ (by simp))
              rw [setNext_other _ n m none hmn, setPrev_other _ n m none hmn,
                setPrev_other _ nx m (some t) hmnx,
                setNext_other _ t m (some nx) hmt]
              refine hclean m ?_
              intro hmem
              rcases List.mem_append.mp hmem with h1 | h1
              · exact hml h1
              · rcases List.mem_cons.mp h1 with h2 | h2
                · exact hmn h2
                · exact hmr h2

/-- Every reachable state is well-formed. -/
theorem reach_wf {T : Type} {s : ListState T} {xs : List Nat} {p r : Nat}
    (h : Reach s xs p r) : ListWf s xs := by
  induction h with
  | init h hclean =>
      exact ⟨⟨trivial, rfl, rfl, rfl, List.nodup_nil⟩, fun n _ => hclean n⟩
  | push s xs p r n hs hn ih => exact push_back_wf ih hn
  | rem s xs p r n hs hn ih => exact remove_wf ih hn

/-- The chain length accounts exactly for pushes minus removals. -/
theorem reach_count {T : Type} {s : ListState T} {xs : List Nat} {p r : Nat}
    (h : Reach s xs p r) : xs.length + r = p := by
  induction h with
  | init h hclean => rfl
  | push s xs p r n hs hn ih => simp; omega
  | rem s xs p r n hs hn ih =>
      have hlen := List.length_erase_add_one hn
      omega

/-! ### The claims -/

/-- C1: in every state reachable from `IntrusiveList::new()` by
precondition-respecting `push_back` and `remove` calls, the links are
mutually consistent (`A.next = B` implies `B.prev = A` for linked nodes),
and following `next` from `head` for exactly `len` steps visits precisely
the linked chain, ending at `tail` and then null. -/
theorem intrusive_list_links_invariant {T : Type} {s : ListState T}
    {xs : List Nat} {p r : Nat} (h : Reach s xs p r) :
    (∀ a b, a ∈ xs → (s.heap a).next = some b → (s.heap b).prev = some a) ∧
    traverseNext s.heap s.head s.len = xs ∧
    s.tail = xs.getLast? ∧
    iterNext s.heap s.head s.len = none := by
  obtain ⟨⟨hchain, hhead, htail, hlen, _⟩, _⟩ := reach_wf h
  refine ⟨fun a b ha hn => chainSeg_consistent hchain a b ha hn, ?_, htail, ?_⟩
  · rw [hhead, hlen]
    exact chainSeg_traverseNext hchain
  · rw [hhead, hlen]
    exact chainSeg_iterNext hchain

theorem intrusive_list_links_invariant_witness :
    (∀ a b, a ∈ [0, 1] →
      ((push_back (push_back (newList cleanHeap) 0) 1).heap a).next = some b →
      ((push_back (push_back (newList cleanHeap) 0) 1).heap b).prev = some a) ∧
    traverseNext (push_back (push_back (newList cleanHeap) 0) 1).heap
      (push_back (push_back (newList cleanHeap) 0) 1).head
      (push_back (push_back (newList cleanHeap) 0) 1).len = [0, 1] ∧
    (push_back (push_back (newList cleanHeap) 0) 1).tail = [0, 1].getLast? ∧
    iterNext (push_back (push_back (newList cleanHeap) 0) 1).heap
      (push_back (push_back (newList cleanHeap) 0) 1).head
      (push_back (push_back (newList cleanHeap) 0) 1).len = none :=
  intrusive_list_links_invariant
    (Reach.push _ _ _ _ 1
      (Reach.push _ _ _ _ 0 (Reach.init cleanHeap cleanHeap_clean)
        (by simp))
      (by simp))

/-- C9: `IntrusiveList::new()` returns the empty list: `head = None`,
`tail = None`, `len = 0`. -/
theorem new_list_empty {T : Type} (h : Nat → ListNode T) :
    (newList h).head = none ∧ (newList h).tail = none ∧
    (newList h).len = 0 :=
  ⟨rfl, rfl, rfl⟩

/-- C6: after `remove(n)`, the removed node's own `next` and `prev` links
are both cleared (this holds for the final two pointer writes of `remove`
regardless of any precondition). -/
theorem remove_clears_node_links {T : Type} (s : ListState T) (n : Nat) :
    ((remove s n).heap n).next = none ∧ ((remove s n).heap n).prev = none := by
  constructor
  · show (setNext _ n none n).next = none
    rw [setNext_self]
  · show (setNext (setPrev _ n none) n none n).prev = none
    rw [setNext_self]
    show (setPrev _ n none n).prev = none
    rw [setPrev_self]

/-- C7: after any precondition-respecting call sequence, `len` equals the
number of `push_back` calls minus the number of `remove` calls. -/
theorem len_eq_pushes_minus_removes {T : Type} {s : ListState T}
    {xs : List Nat} {p r : Nat} (h : Reach s xs p r) :
    r ≤ p ∧ s.len = p - r := by
  have hcount := reach_count h
  obtain ⟨⟨_, _, _, hlen, _⟩, _⟩ := reach_wf h
  omega

theorem len_eq_pushes_minus_removes_witness :
    (1 : Nat) ≤ 2 ∧
    (remove (push_back (push_back (newList cleanHeap) 0) 1) 0).len = 2 - 1 :=
  len_eq_pushes_minus_removes
    (Reach.rem _ _ _ _ 0
      (Reach.push _ _ _ _ 1
        (Reach.push _ _ _ _ 0 (Reach.init cleanHeap cleanHeap_clean)
          (by simp))
        (by simp))
      (by simp))

theorem traverseNext_zero {T : Type} (h : Nat → ListNode T) (o : Option Nat) :
    traverseNext h o 0 = [] := by
  cases o <;> rfl

theorem traversePrev_zero {T : Type} (h : Nat → ListNode T) (o : Option Nat) :
    traversePrev h o 0 = [] := by
  cases o <;> rfl

/-- Three-step traversals, reduced to the four heap reads they perform. -/
theorem traverse_three {T : Type} (H : Nat → ListNode T) (a b c : Nat)
    (e1 : (H a).next = some b) (e2 : (H b).next = some c)
    (e3 : (H c).prev = some b) (e4 : (H b).prev = some a) :
    traverseNext H (some a) 3 = [a, b, c] ∧
    traversePrev H (some c) 3 = [c, b, a] := by
  constructor
  · show a :: traverseNext H (H a).next 2 = [a, b, c]
    rw [e1]
    show a :: b :: traverseNext H (H b).next 1 = [a, b, c]
    rw [e2]
    show a :: b :: c :: traverseNext H (H c).next 0 = [a, b, c]
    rw [traverseNext_zero]
  · show c :: traversePrev H (H c).prev 2 = [c, b, a]
    rw [e3]
    show c :: b :: traversePrev H (H b).prev 1 = [c, b, a]
    rw [e4]
    show c :: b :: a :: traversePrev H (H a).prev 0 = [c, b, a]
    rw [traversePrev_zero]

/-- C2: pushing three distinct fresh nodes A, B, C onto an empty list makes
forward traversal from `head` yield A, B, C and backward traversal from
`tail` yield C, B, A. -/
theorem push_back_three_traversal {T : Type} (h0 : Nat → ListNode T)
    (a b c : Nat) (hab : a ≠ b) (hac : a ≠ c) (hbc : b ≠ c)
    (_hca : (h0 a).next = none ∧ (h0 a).prev = none)
    (_hcb : (h0 b).next = none ∧ (h0 b).prev = none)
    (_hcc : (h0 c).next = none ∧ (h0 c).prev = none) :
    traverseNext (push_back (push_back (push_back (newList h0) a) b) c).heap
      (push_back (push_back (push_back (newList h0) a) b) c).head
      (push_back (push_back (push_back (newList h0) a) b) c).len
      = [a, b, c] ∧
    traversePrev (push_back (push_back (push_back (newList h0) a) b) c).heap
      (push_back (push_back (push_back (newList h0) a) b) c).tail
      (push_back (push_back (push_back (newList h0) a) b) c).len
      = [c, b, a] := by
  have hstate : push_back (push_back (push_back (newList h0) a) b) c =
      ⟨setPrev (setNext (setPrev (setNext h0 a (some b)) b (some a)) b
        (some c)) c (some b), some a, some c, 3⟩ := by
    simp [push_back, newList]
  rw [hstate]
  dsimp only
  refine traverse_three _ a b c ?_ ?_ ?_ ?_
  · rw [setPrev_other _ c a (some b) hac, setNext_other _ b a (some c) hab,
      setPrev_other _ b a (some a) hab, setNext_self]
  · rw [setPrev_other _ c b (some b) hbc, setNext_self]
  · rw [setPrev_self]
  · rw [setPrev_other _ c b (some b) hbc, setNext_self]
    show (setPrev (setNext h0 a (some b)) b (some a) b).prev = some a
    rw [setPrev_self]

theorem push_back_three_traversal_witness :
    traverseNext
      (push_back (push_back (push_back (newList cleanHeap) 0) 1) 2).heap
      (push_back (push_back (push_back (newList cleanHeap) 0) 1) 2).head
      (push_back (push_back (push_back (newList cleanHeap) 0) 1) 2).len
      = [0, 1, 2] ∧
    traversePrev
      (push_back (push_back (push_back (newList cleanHeap) 0) 1) 2).heap
      (push_back (push_back (push_back (newList cleanHeap) 0) 1) 2).tail
      (push_back (push_back (push_back (newList cleanHeap) 0) 1) 2).len
      = [2, 1, 0] :=
  push_back_three_traversal cleanHeap 0 1 2 (by decide) (by decide)
    (by decide) ⟨rfl, rfl⟩ ⟨rfl, rfl⟩ ⟨rfl, rfl⟩

/-- C3: removing the head node (the linked node with `prev = None`) moves
`head` to its former successor; if it was also the sole element, both
`head` and `tail` become `None`. -/
theorem remove_head_updates_head {T : Type} {s : ListState T} {n : Nat}
    {rest : List Nat} (hinv : ListInv s (n :: rest)) :
    (remove s n).head = rest.head? ∧
    (rest = [] → (remove s n).head = none ∧ (remove s n).tail = none) := by
  obtain ⟨hchain, _, _, _, _⟩ := hinv
  obtain ⟨hprev, hnext, _⟩ := hchain
  have hh : (remove s n).head =
      match (s.heap n).prev with
      | some _ => s.head
      | none => (s.heap n).next := rfl
  have ht : (remove s n).tail =
      match (s.heap n).next with
      | some _ => s.tail
      | none => (s.heap n).prev := rfl
  constructor
  · rw [hh, hprev]
    show (s.heap n).next = rest.head?
    rw [hnext, exitPtr_none_eq_head?]
  · intro hrest
    subst hrest
    constructor
    · rw [hh, hprev]
      show (s.heap n).next = none
      rw [hnext]
      rfl
    · rw [ht, hnext]
      show (s.heap n).prev = none
      exact hprev

theorem remove_head_updates_head_witness :
    (remove (push_back (push_back (newList cleanHeap) 0) 1) 0).head
      = [1].head? ∧
    ([1] = [] →
      (remove (push_back (push_back (newList cleanHeap) 0) 1) 0).head = none ∧
      (remove (push_back (push_back (newList cleanHeap) 0) 1) 0).tail
        = none) :=
  remove_head_updates_head
    (reach_wf
      (Reach.push _ _ _ _ 1
        (Reach.push _ _ _ _ 0 (Reach.init cleanHeap cleanHeap_clean)
          (by simp))
        (by simp))).1

/-- C4: removing the tail node when it has a predecessor moves `tail` to
the former second-to-last node. -/
theorem remove_tail_updates_tail {T : Type} {s : ListState T} {n : Nat}
    {ys : List Nat} (hinv : ListInv s (ys ++ [n])) (_hys : ys ≠ []) :
    (remove s n).tail = ys.getLast? := by
  obtain ⟨hchain, _, _, _, _⟩ := hinv
  rw [chainSeg_append] at hchain
  obtain ⟨_, hprev, hnext, _⟩ := hchain
  have ht : (remove s n).tail =
      match (s.heap n).next with
      | some _ => s.tail
      | none => (s.heap n).prev := rfl
  rw [ht]
  have hnext2 : (s.heap n).next = none := by rw [hnext]; rfl
  rw [hnext2]
  show (s.heap n).prev = ys.getLast?
  rw [hprev, entryPtr_none_eq_getLast?]

theorem remove_tail_updates_tail_witness :
    (remove (push_back (push_back (newList cleanHeap) 0) 1) 1).tail
      = [0].getLast? :=
  remove_tail_updates_tail
    ((reach_wf
      (Reach.push _ _ _ _ 1
        (Reach.push _ _ _ _ 0 (Reach.init cleanHeap cleanHeap_clean)
          (by simp))
        (by simp))).1)
    (by simp)

/-- C5: removing a middle node leaves the chain contiguous: its former
predecessor's `next` and its former successor's `prev` bypass it. -/
theorem remove_middle_contiguous {T : Type} {s : ListState T}
    {n p nx : Nat} {l r : List Nat} (hinv : ListInv s (l ++ n :: r))
    (hp : l.getLast? = some p) (hnx : r.head? = some nx) :
    ((remove s n).heap p).next = some nx ∧
    ((remove s n).heap nx).prev = some p := by
  obtain ⟨hchain, _, _, _, hnodup⟩ := hinv
  rw [List.nodup_append] at hnodup
  obtain ⟨_, hndnr, hdisj⟩ := hnodup
  have hnr : n ∉ r := (List.nodup_cons.mp hndnr).1
  rw [chainSeg_append] at hchain
  obtain ⟨_, hprev, hnext, _⟩ := hchain
  have hpmem : p ∈ l := List.mem_of_getLast?_eq_some hp
  have hnxmem : nx ∈ r := head?_mem hnx
  have hpn : p ≠ n := fun hEq =>
    hdisj hpmem (by rw [hEq]; exact List.mem_cons_self n r)
  have hnxn : nx ≠ n := fun hEq => hnr (hEq ▸ hnxmem)
  have hpnx : p ≠ nx := fun hEq =>
    hdisj hpmem (by rw [hEq]; exact List.mem_cons_of_mem n hnxmem)
  have hprevEq : (s.heap n).prev = some p := by
    rw [hprev, entryPtr_none_eq_getLast?, hp]
  have hnextEq : (s.heap n).next = some nx := by
    rw [hnext, exitPtr_none_eq_head?, hnx]
  have hstate : remove s n =
      ⟨setNext (setPrev (setPrev (setNext s.heap p (some nx)) nx (some p))
        n none) n none, s.head, s.tail, s.len - 1⟩ := by
    simp [remove, hprevEq, hnextEq]
  rw [hstate]
  dsimp only
  constructor
  · rw [setNext_other _ n p none hpn, setPrev_other _ n p none hpn,
      setPrev_other _ nx p (some p) hpnx, setNext_self]
  · rw [setNext_other _ n nx none hnxn, setPrev_other _ n nx none hnxn,
      setPrev_self]

theorem remove_middle_contiguous_witness :
    ((remove (push_back (push_back (push_back (newList cleanHeap) 0) 1) 2)
        1).heap 0).next = some 2 ∧
    ((remove (push_back (push_back (push_back (newList cleanHeap) 0) 1) 2)
        1).heap 2).prev = some 0 :=
  @remove_middle_contiguous Nat _ 1 0 2 [0] [2]
    ((reach_wf
      (Reach.push _ _ _ _ 2
        (Reach.push _ _ _ _ 1
          (Reach.push _ _ _ _ 0 (Reach.init cleanHeap cleanHeap_clean)
            (by simp))
          (by simp))
        (by simp))).1)
    rfl rfl

/-- C8: under the stated preconditions, the operations are total with no
error path; in particular a linked node implies `len ≥ 1`, so the `len`
decrement in `remove` is exact (never underflows), and `push_back` always
increments `len`. -/
theorem ops_no_failure_path {T : Type} {s : ListState T} {xs : List Nat}
    {n : Nat} (hinv : ListInv s xs) (hn : n ∈ xs) :
    1 ≤ s.len ∧ (remove s n).len + 1 = s.len ∧
    ∀ m, (push_back s m).len = s.len + 1 := by
  obtain ⟨_, _, _, hlen, _⟩ := hinv
  have hpos : 0 < xs.length := List.length_pos_of_mem hn
  have hlen1 : 1 ≤ s.len := by omega
  refine ⟨hlen1, ?_, ?_⟩
  · show s.len - 1 + 1 = s.len
    omega
  · intro m
    cases htail : s.tail with
    | none => simp [push_back, htail]
    | some t => simp [push_back, htail]

theorem ops_no_failure_path_witness :
    1 ≤ (push_back (push_back (newList cleanHeap) 0) 1).len ∧
    (remove (push_back (push_back (newList cleanHeap) 0) 1) 0).len + 1 =
      (push_back (push_back (newList cleanHeap) 0) 1).len ∧
    ∀ m, (push_back (push_back (push_back (newList cleanHeap) 0) 1) m).len =
      (push_back (push_back (newList cleanHeap) 0) 1).len + 1 :=
  ops_no_failure_path
    ((reach_wf
      (Reach.push _ _ _ _ 1
        (Reach.push _ _ _ _ 0 (Reach.init cleanHeap cleanHeap_clean)
          (by simp))
        (by simp))).1)
    (by simp)

/-- C10: neither operation ever changes a node's `value`; `push_back`
touches the links only of the pushed node and the former tail, and
`remove` only those of the removed node and its two former neighbours. -/
theorem ops_frame_condition {T : Type} (s : ListState T) (n m : Nat) :
    ((push_back s n).heap m).value = (s.heap m).value ∧
    ((remove s n).heap m).value = (s.heap m).value ∧
    (m ≠ n → s.tail ≠ some m → (push_back s n).heap m = s.heap m) ∧
    (m ≠ n → (s.heap n).prev ≠ some m → (s.heap n).next ≠ some m →
      (remove s n).heap m = s.heap m) := by
  refine ⟨?_, ?_, ?_, ?_⟩
  · cases htail : s.tail with
    | none => simp [push_back, htail]
    | some t =>
        simp only [push_back, htail]
        rw [setPrev_value, setNext_value]
  · cases hprevEq : (s.heap n).prev with
    | none =>
        cases hnextEq : (s.heap n).next with
        | none =>
            have hstate : remove s n =
                ⟨setNext (setPrev s.heap n none) n none, none, none,
                 s.len - 1⟩ := by simp [remove, hprevEq, hnextEq]
            rw [hstate]
            dsimp only
            rw [setNext_value, setPrev_value]
        | some nx =>
            have hstate : remove s n =
                ⟨setNext (setPrev (setPrev s.heap nx none) n none) n none,
                 some nx, s.tail, s.len - 1⟩ := by
              simp [remove, hprevEq, hnextEq]
            rw [hstate]
            dsimp only
            rw [setNext_value, setPrev_value, setPrev_value]
    | some pp =>
        cases hnextEq : (s.heap n).next with
        | none =>
            have hstate : remove s n =
                ⟨setNext (setPrev (setNext s.heap pp none) n none) n none,
                 s.head, some pp, s.len - 1⟩ := by
              simp [remove, hprevEq, hnextEq]
            rw [hstate]
            dsimp only
            rw [setNext_value, setPrev_value, setNext_value]
        | some nx =>
            have hstate : remove s n =
                ⟨setNext (setPrev (setPrev (setNext s.heap pp (some nx)) nx
                   (some pp)) n none) n none,
                 s.head, s.tail, s.len - 1⟩ := by
              simp [remove, hprevEq, hnextEq]
            rw [hstate]
            dsimp only
            rw [setNext_value, setPrev_value, setPrev_value, setNext_value]
  · intro hmn htm
    cases htail : s.tail with
    | none => simp [push_back, htail]
    | some t =>
        have hmt : m ≠ t := fun hEq => htm (by rw [htail, hEq])
        simp only [push_back, htail]
        rw [setPrev_other _ n m (some t) hmn,
          setNext_other _ t m (some n) hmt]
  · intro hmn hpm hnm
    cases hprevEq : (s.heap n).prev with
    | none =>
        cases hnextEq : (s.heap n).next with
        | none =>
            have hstate : remove s n =
                ⟨setNext (setPrev s.heap n none) n none, none, none,
                 s.len - 1⟩ := by simp [remove, hprevEq, hnextEq]
            rw [hstate]
            dsimp only
            rw [setNext_other _ n m none hmn, setPrev_other _ n m none hmn]
        | some nx =>
            have hmnx : m ≠ nx := fun hEq => hnm (by rw [hnextEq, hEq])
            have hstate : remove s n =
                ⟨setNext (setPrev (setPrev s.heap nx none) n none) n none,
                 some nx, s.tail, s.len - 1⟩ := by
              simp [remove, hprevEq, hnextEq]
            rw [hstate]
            dsimp only
            rw [setNext_other _ n m none hmn, setPrev_other _ n m none hmn,
              setPrev_other _ nx m none hmnx]
    | some pp =>
        have hmpp : m ≠ pp := fun hEq => hpm (by rw [hprevEq, hEq])
        cases hnextEq : (s.heap n).next with
        | none =>
            have hstate : remove s n =
                ⟨setNext (setPrev (setNext s.heap pp none) n none) n none,
                 s.head, some pp, s.len - 1⟩ := by
              simp [remove, hprevEq, hnextEq]
            rw [hstate]
            dsimp only
            rw [setNext_other _ n m none hmn, setPrev_other _ n m none hmn,
              setNext_other _ pp m none hmpp]
        | some nx =>
            have hmnx : m ≠ nx := fun hEq => hnm (by rw [hnextEq, hEq])
            have hstate : remove s n =
                ⟨setNext (setPrev (setPrev (setNext s.heap pp (some nx)) nx
                   (some pp)) n none) n none,
                 s.head, s.tail, s.len - 1⟩ := by
              simp [remove, hprevEq, hnextEq]
            rw [hstate]
            dsimp only
            rw [setNext_other _ n m none hmn, setPrev_other _ n m none hmn,
              setPrev_other _ nx m (some pp) hmnx,
              setNext_other _ pp m (some nx) hmpp]

theorem ops_frame_condition_witness :
    ((push_back (push_back (push_back (newList cleanHeap) 0) 1) 5).heap
      0).value =
      ((push_back (push_back (newList cleanHeap) 0) 1).heap 0).value ∧
    ((remove (push_back (push_back (newList cleanHeap) 0) 1) 5).heap
      0).value =
      ((push_back (push_back (newList cleanHeap) 0) 1).heap 0).value ∧
    (push_back (push_back (push_back (newList cleanHeap) 0) 1) 5).heap 0 =
      (push_back (push_back (newList cleanHeap) 0) 1).heap 0 ∧
    (remove (push_back (push_back (newList cleanHeap) 0) 1) 5).heap 0 =
      (push_back (push_back (newList cleanHeap) 0) 1).heap 0 := by
  obtain ⟨h1, h2, h3, h4⟩ :=
    ops_frame_condition (push_back (push_back (newList cleanHeap) 0) 1) 5 0
  exact ⟨h1, h2, h3 (by decide) (by decide), h4 (by decide) (by decide)
    (by decide)⟩

theorem new_list_empty_witness :
    (newList cleanHeap).head = none ∧ (newList cleanHeap).tail = none ∧
    (newList cleanHeap).len = 0 :=
  new_list_empty cleanHeap

theorem remove_clears_node_links_witness :
    ((remove (push_back (push_back (newList cleanHeap) 0) 1) 0).heap 0).next
      = none ∧
    ((remove (push_back (push_back (newList cleanHeap) 0) 1) 0).heap 0).prev
      = none :=
  remove_clears_node_links (push_back (push_back (newList cleanHeap) 0) 1) 0
